import Mathlib

/-!
Verification of the image-layout engine of `image_gen.py`.

Texts are modelled as `List Char` (a Python `str` is a sequence of characters).
Pixel measurement (`draw.textbbox(...)[2]` / `[3]`) is an external font
operation; it is abstracted as a function `List Char → Int` (width of a text
under a fixed font) or `Int → List Char → Int` (font size → text → width)
wherever the code measures text.  All layout code is translated from the
source; the spec-side title sanitizer used for one comparison is clearly
marked.
-/

set_option autoImplicit false

/-- Python `text.split()`: split on runs of whitespace, discarding empty
pieces.  Embeds the `words = text.split()` step of `wrap_text_by_width`
(`image_gen.py` line 152). -/
def pySplit : List Char → List (List Char)
  | [] => []
  | c :: cs =>
    if c.isWhitespace then pySplit cs
    else
      match cs with
      | [] => [[c]]
      | d :: _ =>
        if d.isWhitespace then [c] :: pySplit cs
        else
          match pySplit cs with
          | [] => [[c]]
          | w :: ws => (c :: w) :: ws

/-- Python `" ".join(lines)`: join texts with single spaces. -/
def joinSp : List (List Char) → List Char
  | [] => []
  | [a] => a
  | a :: b :: l => a ++ ' ' :: joinSp (b :: l)

/-- Loop body of `wrap_text_by_width` (`image_gen.py` lines 156-165): greedily
extend the current line `cur` with the next word while the measured width of
the extended text stays within `maxw`; otherwise emit `cur` and start a new
line with the word.  The final `cur` is always emitted. -/
def wrapAux (meas : List Char → Int) (maxw : Int) : List (List Char) → List Char → List (List Char)
  | [], cur => [cur]
  | w :: ws, cur =>
    if meas (cur ++ ' ' :: w) ≤ maxw then wrapAux meas maxw ws (cur ++ ' ' :: w)
    else cur :: wrapAux meas maxw ws w

/-- `wrap_text_by_width(draw, text, font, max_width)` (`image_gen.py` lines
147-166).  `meas line` stands for `draw.textbbox((0,0), line, font=font)[2]`. -/
def wrap_text_by_width (meas : List Char → Int) (text : List Char) (maxw : Int) : List (List Char) :=
  match pySplit text with
  | [] => []
  | w :: ws => wrapAux meas maxw ws w

/-- Python `s.strip()`: remove leading and trailing whitespace. -/
def pyStrip (s : List Char) : List Char :=
  ((s.dropWhile Char.isWhitespace).reverse.dropWhile Char.isWhitespace).reverse

/-- `IMG_W` (`image_gen.py` line 44). -/
def IMG_W : Int := 2000

/-- `IMG_H` (`image_gen.py` line 44). -/
def IMG_H : Int := 2500

/-- `MARGIN` (`image_gen.py` line 45). -/
def MARGIN : Int := 120

/-- `TITLE_FONT_BASE` (`image_gen.py` line 54). -/
def TITLE_FONT_BASE : Int := 400

/-- `TITLE_FONT_MIN` (`image_gen.py` line 55). -/
def TITLE_FONT_MIN : Int := 90

/-- `fit_font_for_width(draw, text, font_path, start_size, max_width, min_size)`
(`image_gen.py` lines 169-182): decrease the size by 6 while it is still at
least `min_size`, returning the first size at which the whole text measures
within `maxw`; if the loop exhausts, return `min_size`.  `measAt size text`
stands for `draw.textbbox((0,0), text, font=load_font(font_path, size))[2]`. -/
def fit_font_for_width (measAt : Int → List Char → Int) (text : List Char)
    (start min_size maxw : Int) : Int :=
  if h : min_size ≤ start then
    if measAt start text ≤ maxw then start
    else fit_font_for_width measAt text (start - 6) min_size maxw
  else min_size
termination_by (start + 1 - min_size).toNat
decreasing_by omega

/-- The sizes tried by the `while size >= min_size` loop of
`fit_font_for_width`, in order. -/
def triedSizes (start min_size : Int) : List Int :=
  if h : min_size ≤ start then start :: triedSizes (start - 6) min_size else []
termination_by (start + 1 - min_size).toNat
decreasing_by omega

/-- The `while len(title_lines) > 5 and size > TITLE_FONT_MIN` loop of
`create_post_image` (`image_gen.py` lines 250-253): decrement the size by 8
and re-wrap, while more than 5 lines and the size is still above
`min_size`. -/
def lcf_loop (measAt : Int → List Char → Int) (headline : List Char)
    (maxw min_size : Int) (size : Int) (lines : List (List Char)) :
    Int × List (List Char) :=
  if h : 5 < lines.length ∧ min_size < size then
    lcf_loop measAt headline maxw min_size (size - 8)
      (wrap_text_by_width (measAt (size - 8)) headline maxw)
  else (size, lines)
termination_by (size - min_size).toNat
decreasing_by omega

/-- Number of iterations performed by `lcf_loop`. -/
def lcf_iters (measAt : Int → List Char → Int) (headline : List Char)
    (maxw min_size : Int) (size : Int) (lines : List (List Char)) : Nat :=
  if h : 5 < lines.length ∧ min_size < size then
    lcf_iters measAt headline maxw min_size (size - 8)
      (wrap_text_by_width (measAt (size - 8)) headline maxw) + 1
  else 0
termination_by (size - min_size).toNat
decreasing_by omega

/-- Line-count-fit phase of `create_post_image` (`image_gen.py` lines
243-253): wrap the headline at the width-fitted size `s0`; if more than 5
lines result, run the coarser shrinking loop. -/
def line_count_fit (measAt : Int → List Char → Int) (headline : List Char)
    (maxw min_size s0 : Int) : Int × List (List Char) :=
  if 5 < (wrap_text_by_width (measAt s0) headline maxw).length then
    lcf_loop measAt headline maxw min_size s0 (wrap_text_by_width (measAt s0) headline maxw)
  else (s0, wrap_text_by_width (measAt s0) headline maxw)

/-- Number of shrinking iterations performed by the line-count-fit phase. -/
def line_count_fit_iters (measAt : Int → List Char → Int) (headline : List Char)
    (maxw min_size s0 : Int) : Nat :=
  if 5 < (wrap_text_by_width (measAt s0) headline maxw).length then
    lcf_iters measAt headline maxw min_size s0 (wrap_text_by_width (measAt s0) headline maxw)
  else 0

/-- `gap = 60` between title and summary (`image_gen.py` line 266). -/
def gap : Int := 60

/-- `available = IMG_H - 2 * MARGIN` (`image_gen.py` line 274). -/
def available : Int := IMG_H - 2 * MARGIN

/-- `total_content_h = total_title_h + gap + total_summary_h`
(`image_gen.py` line 269). -/
def total_content_h (title_h summary_h : Int) : Int := title_h + gap + summary_h

/-- Top-Y heuristic of `create_post_image` (`image_gen.py` lines 275-278).
With the module constants, `available = 2260`; the Python float products
`available * 0.6` and `available * 0.15` round to exactly `1356.0` and
`339.0` in IEEE-754 double precision, and `int(MARGIN + 339.0) = 459 =
MARGIN + 339`, so the comparison and both branches are exact integers. -/
def top_y (t : Int) : Int :=
  if t < 1356 then MARGIN + 339 else MARGIN + 40

/-- `s.startswith(pat)` on character lists (used to embed `str.partition`). -/
def listStartsWith : List Char → List Char → Bool
  | _, [] => true
  | [], _ :: _ => false
  | c :: cs, p :: ps => (c == p) && listStartsWith cs ps

/-- The part of `s` before the first occurrence of `pat`, when `pat` occurs
in `s`: embeds `before, match, after = line.partition(highlight)` together
with the Python substring test `highlight in line`
(`image_gen.py` lines 285-287). -/
def pyPartitionBefore (pat : List Char) : List Char → Option (List Char)
  | [] => if listStartsWith [] pat then some [] else none
  | c :: t =>
    if listStartsWith (c :: t) pat then some []
    else (pyPartitionBefore pat t).map (fun b => c :: b)

/-- One drawn title line: its text, its top `y`, and the highlight rectangle
`(x0, y0, x1, y1)` passed to `draw.rectangle`, when one is drawn. -/
structure TitleLineDraw where
  line : List Char
  y : Int
  box : Option (Int × Int × Int × Int)
deriving DecidableEq

/-- Highlight rectangle computation of `create_post_image` (`image_gen.py`
lines 285-298): a box is produced when `highlight` is nonempty and occurs in
the line; its corners are `(MARGIN + w_before - 8, y - 6,
MARGIN + w_before + w_match + 8, y + h_match + 6)`. -/
def lineBox (measW measH : List Char → Int) (hl line : List Char) (y : Int) :
    Option (Int × Int × Int × Int) :=
  if hl = [] then none
  else
    match pyPartitionBefore hl line with
    | none => none
    | some before =>
      some (MARGIN + measW before - 8, y - 6,
        MARGIN + measW before + measW hl + 8, y + measH hl + 6)

/-- The `for i, line in enumerate(title_lines)` drawing loop of
`create_post_image` (`image_gen.py` lines 283-306): each line is drawn at the
running `y`, with a highlight box whenever the phrase occurs in that line,
and `y` advances by the line height plus 18. -/
def drawTitleLines (measW measH : List Char → Int) (hl : List Char) :
    List (List Char) → Int → List TitleLineDraw
  | [], _ => []
  | line :: rest, y =>
    { line := line, y := y, box := lineBox measW measH hl line y } ::
      drawTitleLines measW measH hl rest (y + measH line + 18)

/-- `safe_cat = re.sub(r"[^\w\-]", "_", category) if category else
"uncategorized"` (`image_gen.py` line 320).  `\w` is modelled over ASCII as
`[A-Za-z0-9_]`. -/
def safe_cat (category : List Char) : List Char :=
  if category = [] then ("uncategorized").data
  else category.map (fun c => if c.isAlphanum || c == '_' || c == '-' then c else '_')

/-- `re.sub(r"[^a-zA-Z0-9]+", "_", s)`: replace each maximal run of
non-alphanumeric characters with a single underscore.  The flag records
whether the previous character was part of such a run. -/
def collapseAux : Bool → List Char → List Char
  | _, [] => []
  | inRun, c :: cs =>
    if c.isAlphanum then c :: collapseAux false cs
    else if inRun then collapseAux true cs
    else '_' :: collapseAux true cs

/-- `safe_title = re.sub(r"[^a-zA-Z0-9]+", "_", title_original)[:40]`
(`image_gen.py` line 323). -/
def safe_title (t : List Char) : List Char :=
  (collapseAux false t).take 40

/-- The saved path `os.path.join(OUTPUT_DIR, safe_cat,
f"post_{index}_{safe_title}.png")` (`image_gen.py` lines 320-324), with
POSIX separators. -/
def out_path (category t : List Char) (index : Nat) : List Char :=
  ("generated_posts/").data ++ safe_cat category ++ ("/post_").data ++
    (Nat.repr index).data ++ ("_").data ++ safe_title t ++ (".png").data

/-- One input item: the optional `title` and `summary` JSON fields
(`item.get("title", "")`, `item.get("summary", "")`). -/
structure Item where
  titleField : Option (List Char)
  summaryField : Option (List Char)
deriving DecidableEq

/-- `title_original = item.get("title", "").strip() or "No Title"`
(`image_gen.py` line 193). -/
def title_original (it : Item) : List Char :=
  let t := pyStrip ((it.titleField).getD [])
  if t = [] then ("No Title").data else t

/-- `summary_raw = item.get("summary", "").strip() or ""`
(`image_gen.py` line 194). -/
def summary_raw (it : Item) : List Char :=
  let s := pyStrip ((it.summaryField).getD [])
  if s = [] then [] else s

/-- The save step of `create_post_image` (`image_gen.py` lines 319-325):
`os.makedirs` plus `img.save` either succeed, returning the path, or raise
an `OSError` (modelled as `Except.error ()`).  `saveOk` abstracts whether
the filesystem accepts the write at a given path. -/
def save_image (saveOk : List Char → Bool) (category : List Char) (it : Item)
    (index : Nat) : Except Unit (List Char) :=
  let p := out_path category (title_original it) index
  if saveOk p then Except.ok p else Except.error ()

/-- The inner `for i, it in enumerate(items)` loop of `generate_all`
(`image_gen.py` lines 343-345) for one category: items are processed in
order with 1-based indices; an exception from the save step propagates
immediately (there is no `try`/`except`). -/
def generate_all_go (saveOk : List Char → Bool) (category : List Char) :
    Nat → List Item → Except Unit (List (List Char))
  | _, [] => Except.ok []
  | i, it :: rest =>
    match save_image saveOk category it i with
    | Except.error e => Except.error e
    | Except.ok p => (generate_all_go saveOk category (i + 1) rest).map (fun ps => p :: ps)

/-- `generate_all` restricted to a single category, starting at index 1. -/
def generate_all (saveOk : List Char → Bool) (category : List Char)
    (items : List Item) : Except Unit (List (List Char)) :=
  generate_all_go saveOk category 1 items

/-- The files actually written before `generate_all` stops: successful saves
strictly preceding the first failing item. -/
def generate_all_saved_go (saveOk : List Char → Bool) (category : List Char) :
    Nat → List Item → List (List Char)
  | _, [] => []
  | i, it :: rest =>
    match save_image saveOk category it i with
    | Except.error _ => []
    | Except.ok p => p :: generate_all_saved_go saveOk category (i + 1) rest

/-- Saved-file trace of `generate_all` for one category. -/
def generate_all_saved (saveOk : List Char → Bool) (category : List Char)
    (items : List Item) : List (List Char) :=
  generate_all_saved_go saveOk category 1 items

/-- Measurer for the C4 counterexample: at size 90 every text has width 0;
at any other size the width is the character count. -/
def cexMeas : Int → List Char → Int :=
  fun s t => if s = 90 then 0 else (t.length : Int)

/-- Headline for the C4 counterexample: seven one-character words. -/
def cexHead : List Char := ("a b c d e f g").data

/-- First batch item for the C9 counterexample. -/
def cexItem1 : Item := { titleField := some ('b' :: []), summaryField := none }

/-- Second batch item for the C9 counterexample. -/
def cexItem2 : Item := { titleField := some ('d' :: []), summaryField := none }

/-- Filesystem model for the C9 counterexample: every path is writable
except the one the first item saves to. -/
def cexSaveOk : List Char → Bool :=
  fun p => !(p == out_path ('c' :: []) (title_original cexItem1) 1)

theorem pySplit_singleton (c : Char) :
    pySplit [c] = if c.isWhitespace then [] else [[c]] := rfl

theorem pySplit_cons_cons (c d : Char) (t : List Char) :
    pySplit (c :: d :: t) =
      if c.isWhitespace then pySplit (d :: t)
      else
        if d.isWhitespace then [c] :: pySplit (d :: t)
        else
          match pySplit (d :: t) with
          | [] => [[c]]
          | w :: ws => (c :: w) :: ws := rfl

/-- Every word produced by `pySplit` is nonempty and whitespace-free. -/
theorem pySplit_words_sound :
    ∀ (s : List Char), ∀ w ∈ pySplit s, w ≠ [] ∧ ∀ c ∈ w, c.isWhitespace = false := by
  intro s
  induction s with
  | nil => intro w hw; simp [pySplit] at hw
  | cons c cs ih =>
    intro w hw
    cases cs with
    | nil =>
      rw [pySplit_singleton] at hw
      by_cases hc : c.isWhitespace
      · rw [if_pos hc] at hw; simp at hw
      · rw [if_neg hc] at hw
        simp at hw
        subst hw
        refine ⟨by simp, ?_⟩
        intro x hx; simp at hx; subst hx
        simpa using hc
    | cons d t =>
      rw [pySplit_cons_cons] at hw
      by_cases hc : c.isWhitespace
      · rw [if_pos hc] at hw
        exact ih w hw
      · rw [if_neg hc] at hw
        by_cases hd : d.isWhitespace
        · rw [if_pos hd] at hw
          rcases List.mem_cons.mp hw with h1 | h2
          · subst h1
            refine ⟨by simp, ?_⟩
            intro x hx; simp at hx; subst hx; simpa using hc
          · exact ih w h2
        · rw [if_neg hd] at hw
          cases hsp : pySplit (d :: t) with
          | nil => rw [hsp] at hw; simp at hw; subst hw
                   refine ⟨by simp, ?_⟩
                   intro x hx; simp at hx; subst hx; simpa using hc
          | cons w0 ws0 =>
            rw [hsp] at hw
            rcases List.mem_cons.mp hw with h1 | h2
            · subst h1
              have h0 := ih w0 (by rw [hsp]; exact List.mem_cons_self w0 ws0)
              refine ⟨by simp, ?_⟩
              intro x hx
              rcases List.mem_cons.mp hx with hx1 | hx2
              · subst hx1; simpa using hc
              · exact h0.2 x hx2
            · exact ih w (by rw [hsp]; exact List.mem_cons_of_mem w0 h2)

theorem pySplit_ws_head (c : Char) (cs : List Char) (h : c.isWhitespace = true) :
    pySplit (c :: cs) = pySplit cs := by
  cases cs with
  | nil => rw [pySplit_singleton, if_pos h]; rfl
  | cons d t => rw [pySplit_cons_cons, if_pos h]

/-- `pySplit` of a single nonempty whitespace-free word is that word alone. -/
theorem pySplit_word :
    ∀ (w : List Char), w ≠ [] → (∀ c ∈ w, c.isWhitespace = false) → pySplit w = [w] := by
  intro w
  induction w with
  | nil => intro h; exact absurd rfl h
  | cons c t ih =>
    intro _ hws
    have hc : c.isWhitespace = false := hws c (List.mem_cons_self _ _)
    cases t with
    | nil => rw [pySplit_singleton, if_neg (by simp [hc])]
    | cons d t' =>
      have ht : pySplit (d :: t') = [d :: t'] :=
        ih (by simp) (fun x hx => hws x (List.mem_cons_of_mem _ hx))
      rw [pySplit_cons_cons, if_neg (by simp [hc]),
        if_neg (by simp [hws d (List.mem_cons_of_mem _ (List.mem_cons_self _ _))]), ht]

/-- Splitting `w ++ ' ' :: r` for a nonempty whitespace-free `w` yields `w`
followed by the split of `r`. -/
theorem pySplit_word_space :
    ∀ (w : List Char) (r : List Char), w ≠ [] → (∀ c ∈ w, c.isWhitespace = false) →
      pySplit (w ++ ' ' :: r) = w :: pySplit r := by
  intro w
  induction w with
  | nil => intro r h; exact absurd rfl h
  | cons c t ih =>
    intro r _ hws
    have hc : c.isWhitespace = false := hws c (List.mem_cons_self _ _)
    cases t with
    | nil =>
      show pySplit (c :: ' ' :: r) = [c] :: pySplit r
      rw [pySplit_cons_cons, if_neg (by simp [hc]), if_pos (by decide),
        pySplit_ws_head ' ' r (by decide)]
    | cons d t' =>
      have hd : d.isWhitespace = false :=
        hws d (List.mem_cons_of_mem _ (List.mem_cons_self _ _))
      have ht : pySplit ((d :: t') ++ ' ' :: r) = (d :: t') :: pySplit r :=
        ih r (by simp) (fun x hx => hws x (List.mem_cons_of_mem _ hx))
      show pySplit (c :: d :: (t' ++ ' ' :: r)) = (c :: d :: t') :: pySplit r
      rw [pySplit_cons_cons, if_neg (by simp [hc]), if_neg (by simp [hd])]
      have ht' : pySplit (d :: (t' ++ ' ' :: r)) = (d :: t') :: pySplit r := ht
      rw [ht']

/-- Round trip: splitting the single-space join of nonempty whitespace-free
words recovers the word list. -/
theorem pySplit_joinSp :
    ∀ (l : List (List Char)), (∀ w ∈ l, w ≠ [] ∧ ∀ c ∈ w, c.isWhitespace = false) →
      pySplit (joinSp l) = l := by
  intro l
  induction l with
  | nil => intro _; rfl
  | cons a t ih =>
    intro h
    have ha := h a (List.mem_cons_self _ _)
    cases t with
    | nil =>
      show pySplit a = [a]
      exact pySplit_word a ha.1 ha.2
    | cons b t' =>
      show pySplit (a ++ ' ' :: joinSp (b :: t')) = a :: b :: t'
      rw [pySplit_word_space a _ ha.1 ha.2,
        ih (fun w hw => h w (List.mem_cons_of_mem _ hw))]

theorem joinSp_cons_ne (a : List Char) (l : List (List Char)) (h : l ≠ []) :
    joinSp (a :: l) = a ++ ' ' :: joinSp l := by
  cases l with
  | nil => exact absurd rfl h
  | cons b t => rfl

theorem wrapAux_ne_nil (meas : List Char → Int) (maxw : Int) :
    ∀ (ws : List (List Char)) (cur : List Char), wrapAux meas maxw ws cur ≠ [] := by
  intro ws
  induction ws with
  | nil => intro cur; simp [wrapAux]
  | cons w t ih =>
    intro cur
    simp only [wrapAux]
    split
    · exact ih (cur ++ ' ' :: w)
    · simp

theorem joinSp_glue (cur w : List Char) (ws : List (List Char)) :
    joinSp ((cur ++ ' ' :: w) :: ws) = joinSp (cur :: w :: ws) := by
  cases ws with
  | nil => rfl
  | cons x xs =>
    show (cur ++ ' ' :: w) ++ ' ' :: joinSp (x :: xs)
        = cur ++ ' ' :: (w ++ ' ' :: joinSp (x :: xs))
    simp

/-- The single-space join of the wrapped lines equals the single-space join of
the pending line and the remaining words. -/
theorem joinSp_wrapAux (meas : List Char → Int) (maxw : Int) :
    ∀ (ws : List (List Char)) (cur : List Char),
      joinSp (wrapAux meas maxw ws cur) = joinSp (cur :: ws) := by
  intro ws
  induction ws with
  | nil => intro cur; rfl
  | cons w t ih =>
    intro cur
    simp only [wrapAux]
    split
    · rw [ih (cur ++ ' ' :: w), joinSp_glue]
    · rw [joinSp_cons_ne _ _ (wrapAux_ne_nil meas maxw t w), ih w,
        joinSp_cons_ne cur (w :: t) (by simp)]

/-- Greedy-wrap invariant: every emitted line either measures within `maxw`
or is one of the words in `W`. -/
theorem wrapAux_sound (meas : List Char → Int) (maxw : Int) (W : List (List Char)) :
    ∀ (ws : List (List Char)) (cur : List Char),
      (meas cur ≤ maxw ∨ cur ∈ W) → (∀ w ∈ ws, w ∈ W) →
      ∀ l ∈ wrapAux meas maxw ws cur, meas l ≤ maxw ∨ l ∈ W := by
  intro ws
  induction ws with
  | nil =>
    intro cur hcur _ l hl
    simp [wrapAux] at hl
    subst hl; exact hcur
  | cons w t ih =>
    intro cur hcur hws l hl
    simp only [wrapAux] at hl
    by_cases hfit : meas (cur ++ ' ' :: w) ≤ maxw
    · rw [if_pos hfit] at hl
      exact ih (cur ++ ' ' :: w) (Or.inl hfit)
        (fun x hx => hws x (List.mem_cons_of_mem _ hx)) l hl
    · rw [if_neg hfit] at hl
      rcases List.mem_cons.mp hl with h1 | h2
      · subst h1; exact hcur
      · exact ih w (Or.inr (hws w (List.mem_cons_self _ _)))
          (fun x hx => hws x (List.mem_cons_of_mem _ hx)) l h2

/-- C1 (confirmed): every line returned by `wrap_text_by_width` has measured
width at most `max_width`, except possibly a line that is a single word of
the input text (which is emitted as its own, possibly overflowing, line). -/
theorem wrap_lines_width_le_or_single_word :
    ∀ (meas : List Char → Int) (text : List Char) (maxw : Int),
      ∀ l ∈ wrap_text_by_width meas text maxw, meas l ≤ maxw ∨ l ∈ pySplit text := by
  intro meas text maxw l hl
  unfold wrap_text_by_width at hl
  cases h : pySplit text with
  | nil => rw [h] at hl; simp at hl
  | cons w ws =>
    rw [h] at hl
    refine wrapAux_sound meas maxw (w :: ws) ws w ?_ ?_ l hl
    · exact Or.inr (List.mem_cons_self _ _)
    · intro x hx; exact List.mem_cons_of_mem _ hx

/-- C1 witness: with a length measurer, text "aa bb" and width 2, the line
"aa" is returned and satisfies the property. -/
theorem wrap_lines_width_witness :
    (('a' :: 'a' :: []) ∈ wrap_text_by_width (fun l => (l.length : Int)) (("aa bb").data) 2) ∧
      ((fun l => (l.length : Int)) ('a' :: 'a' :: []) ≤ 2 ∨
        ('a' :: 'a' :: []) ∈ pySplit (("aa bb").data)) :=
  ⟨by decide,
    wrap_lines_width_le_or_single_word (fun l => (l.length : Int)) (("aa bb").data) 2
      ('a' :: 'a' :: []) (by decide)⟩

/-- C2 (confirmed): joining the wrapped lines with single spaces reproduces
the whitespace-normalized word sequence of the input exactly, and wrapping an
empty or all-whitespace text returns the empty sequence. -/
theorem wrap_roundtrip_words :
    ∀ (meas : List Char → Int) (text : List Char) (maxw : Int),
      pySplit (joinSp (wrap_text_by_width meas text maxw)) = pySplit text ∧
      (pySplit text = [] → wrap_text_by_width meas text maxw = []) := by
  intro meas text maxw
  constructor
  · unfold wrap_text_by_width
    cases h : pySplit text with
    | nil => rfl
    | cons w ws =>
      rw [joinSp_wrapAux meas maxw ws w]
      have hjoin : joinSp (w :: ws) = joinSp (pySplit text) := by rw [h]
      rw [hjoin, pySplit_joinSp (pySplit text) (pySplit_words_sound text), h]
  · intro h
    unfold wrap_text_by_width
    rw [h]

/-- C2 witness: concrete instance with a length measurer, text "x y", width 1. -/
theorem wrap_roundtrip_witness :
    pySplit (joinSp (wrap_text_by_width (fun l => (l.length : Int)) (("x y").data) 1))
        = pySplit (("x y").data) ∧
      (pySplit (("x y").data) = [] →
        wrap_text_by_width (fun l => (l.length : Int)) (("x y").data) 1 = []) :=
  wrap_roundtrip_words (fun l => (l.length : Int)) (("x y").data) 1

theorem triedSizes_of_le {start min_size : Int} (h : min_size ≤ start) :
    triedSizes start min_size = start :: triedSizes (start - 6) min_size := by
  rw [triedSizes.eq_def]
  rw [dif_pos h]

theorem triedSizes_of_lt {start min_size : Int} (h : start < min_size) :
    triedSizes start min_size = [] := by
  rw [triedSizes.eq_def]
  rw [dif_neg (by omega)]

theorem fit_font_of_lt (measAt : Int → List Char → Int) (text : List Char)
    {start min_size : Int} (maxw : Int) (h : start < min_size) :
    fit_font_for_width measAt text start min_size maxw = min_size := by
  rw [fit_font_for_width.eq_def]
  rw [dif_neg (by omega)]

theorem fit_font_of_fits (measAt : Int → List Char → Int) (text : List Char)
    {start min_size maxw : Int} (h : min_size ≤ start)
    (hf : measAt start text ≤ maxw) :
    fit_font_for_width measAt text start min_size maxw = start := by
  rw [fit_font_for_width.eq_def]
  rw [dif_pos h, if_pos hf]

theorem fit_font_of_step (measAt : Int → List Char → Int) (text : List Char)
    {start min_size maxw : Int} (h : min_size ≤ start)
    (hf : ¬ measAt start text ≤ maxw) :
    fit_font_for_width measAt text start min_size maxw =
      fit_font_for_width measAt text (start - 6) min_size maxw := by
  rw [fit_font_for_width.eq_def]
  rw [dif_pos h, if_neg hf]

/-- Structure of the tried-size list: consecutive sizes differ by exactly 6,
all are at least `min_size` and at most `start`, and the head is `start`
whenever `min_size ≤ start`. -/
theorem triedSizes_facts (min_size : Int) :
    ∀ (n : Nat) (start : Int), (start + 1 - min_size).toNat ≤ n →
      List.Chain' (fun a b => b = a - 6) (triedSizes start min_size) ∧
      (∀ x ∈ triedSizes start min_size, min_size ≤ x) ∧
      (∀ x ∈ triedSizes start min_size, x ≤ start) ∧
      (triedSizes start min_size).head? =
        (if min_size ≤ start then some start else none) := by
  intro n
  induction n with
  | zero =>
    intro start hs
    have h : start < min_size := by omega
    rw [triedSizes_of_lt h]
    refine ⟨by simp, by simp, by simp, ?_⟩
    rw [if_neg (by omega)]
    rfl
  | succ n ih =>
    intro start hs
    by_cases h : min_size ≤ start
    · have IH := ih (start - 6) (by omega)
      rw [triedSizes_of_le h]
      refine ⟨?_, ?_, ?_, ?_⟩
      · rw [List.chain'_cons']
        refine ⟨?_, IH.1⟩
        intro b hb
        rw [IH.2.2.2] at hb
        by_cases h6 : min_size ≤ start - 6
        · rw [if_pos h6] at hb
          simp at hb
          omega
        · rw [if_neg h6] at hb
          simp at hb
      · intro x hx
        rcases List.mem_cons.mp hx with h1 | h2
        · omega
        · exact IH.2.1 x h2
      · intro x hx
        rcases List.mem_cons.mp hx with h1 | h2
        · omega
        · have := IH.2.2.1 x h2
          omega
      · rw [if_pos h]
        rfl
    · rw [triedSizes_of_lt (by omega)]
      refine ⟨by simp, by simp, by simp, ?_⟩
      rw [if_neg h]
      rfl

/-- The width-fit search returns the first tried size that fits, and
`min_size` when none does. -/
theorem fit_font_eq_find (measAt : Int → List Char → Int) (text : List Char)
    (min_size maxw : Int) :
    ∀ (n : Nat) (start : Int), (start + 1 - min_size).toNat ≤ n →
      fit_font_for_width measAt text start min_size maxw =
        ((triedSizes start min_size).find?
          (fun x => decide (measAt x text ≤ maxw))).getD min_size := by
  intro n
  induction n with
  | zero =>
    intro start hs
    have h : start < min_size := by omega
    rw [fit_font_of_lt measAt text maxw h, triedSizes_of_lt h]
    rfl
  | succ n ih =>
    intro start hs
    by_cases h : min_size ≤ start
    · rw [triedSizes_of_le h]
      by_cases hf : measAt start text ≤ maxw
      · rw [fit_font_of_fits measAt text h hf]
        rw [List.find?_cons_of_pos _ (by simpa using hf)]
        rfl
      · rw [fit_font_of_step measAt text h hf,
          List.find?_cons_of_neg _ (by simpa using hf)]
        exact ih (start - 6) (by omega)
    · rw [fit_font_of_lt measAt text maxw (by omega), triedSizes_of_lt (by omega)]
      rfl

/-- C3 counterexample: with `start_size = 0 < min_size = 90` the search tries
no size and returns `min_size = 90`, which exceeds `start_size` — refuting
the claim that the returned size never exceeds `start_size` for every
`start_size` and `min_size`. -/
theorem fit_font_exceeds_start_cex :
    ¬ (fit_font_for_width (fun _ _ => (0 : Int)) [] 0 90 0 ≤ 0) := by
  rw [fit_font_of_lt (fun _ _ => (0 : Int)) [] 0 (by omega)]
  decide

/-- C3 (corrected): the width-fit search tries a strictly decreasing sequence
of sizes stepping by 6, all between `min_size` and `start_size`, starting at
`start_size`; it returns the first tried size whose measured width fits
within `maxw`, and `min_size` when no tried size fits.  The returned size
never exceeds `start_size` provided `min_size ≤ start_size` (when
`start_size < min_size`, no size is tried and `min_size` is returned, which
exceeds `start_size`). -/
theorem fit_font_search_props (measAt : Int → List Char → Int) (text : List Char)
    (start min_size maxw : Int) :
    List.Chain' (fun a b => b = a - 6) (triedSizes start min_size) ∧
    (∀ x ∈ triedSizes start min_size, min_size ≤ x ∧ x ≤ start) ∧
    (min_size ≤ start → (triedSizes start min_size).head? = some start) ∧
    fit_font_for_width measAt text start min_size maxw =
      ((triedSizes start min_size).find?
        (fun x => decide (measAt x text ≤ maxw))).getD min_size ∧
    (min_size ≤ start → fit_font_for_width measAt text start min_size maxw ≤ start) := by
  have hfacts := triedSizes_facts min_size (start + 1 - min_size).toNat start (le_refl _)
  have hfind := fit_font_eq_find measAt text min_size maxw
    (start + 1 - min_size).toNat start (le_refl _)
  refine ⟨hfacts.1, ?_, ?_, hfind, ?_⟩
  · intro x hx
    exact ⟨hfacts.2.1 x hx, hfacts.2.2.1 x hx⟩
  · intro h
    rw [hfacts.2.2.2, if_pos h]
  · intro h
    rw [hfind]
    cases hf : (triedSizes start min_size).find? (fun x => decide (measAt x text ≤ maxw)) with
    | none => simpa using h
    | some x =>
      have hx : x ∈ triedSizes start min_size := List.mem_of_find?_eq_some hf
      simpa using hfacts.2.2.1 x hx

/-- C3 witness: a concrete instance where `min_size ≤ start_size` and the
returned size is at most `start_size`. -/
theorem fit_font_search_props_witness :
    fit_font_for_width (fun _ _ => (0 : Int)) [] 100 90 0 ≤ 100 :=
  (fit_font_search_props (fun _ _ => (0 : Int)) [] 100 90 0).2.2.2.2 (by decide)

theorem lcf_loop_of_cond {measAt : Int → List Char → Int} {headline : List Char}
    {maxw min_size size : Int} {lines : List (List Char)}
    (h : 5 < lines.length ∧ min_size < size) :
    lcf_loop measAt headline maxw min_size size lines =
      lcf_loop measAt headline maxw min_size (size - 8)
        (wrap_text_by_width (measAt (size - 8)) headline maxw) := by
  rw [lcf_loop.eq_def]
  rw [dif_pos h]

theorem lcf_loop_of_exit {measAt : Int → List Char → Int} {headline : List Char}
    {maxw min_size size : Int} {lines : List (List Char)}
    (h : ¬(5 < lines.length ∧ min_size < size)) :
    lcf_loop measAt headline maxw min_size size lines = (size, lines) := by
  rw [lcf_loop.eq_def]
  rw [dif_neg h]

theorem lcf_iters_of_cond {measAt : Int → List Char → Int} {headline : List Char}
    {maxw min_size size : Int} {lines : List (List Char)}
    (h : 5 < lines.length ∧ min_size < size) :
    lcf_iters measAt headline maxw min_size size lines =
      lcf_iters measAt headline maxw min_size (size - 8)
        (wrap_text_by_width (measAt (size - 8)) headline maxw) + 1 := by
  rw [lcf_iters.eq_def]
  rw [dif_pos h]

theorem lcf_iters_of_exit {measAt : Int → List Char → Int} {headline : List Char}
    {maxw min_size size : Int} {lines : List (List Char)}
    (h : ¬(5 < lines.length ∧ min_size < size)) :
    lcf_iters measAt headline maxw min_size size lines = 0 := by
  rw [lcf_iters.eq_def]
  rw [dif_neg h]

/-- Invariants of the coarse shrinking loop: the returned line list is the
wrap of the headline at the returned size; the loop stops with at most 5
lines or a size at most `min_size`; the size never increases; a size other
than the initial one stays above `min_size - 8`; and the iteration count is
at most `⌈(size - min_size) / 8⌉`. -/
theorem lcf_facts (measAt : Int → List Char → Int) (headline : List Char)
    (maxw min_size : Int) :
    ∀ (n : Nat) (size : Int) (lines : List (List Char)),
      (size - min_size).toNat ≤ n →
      lines = wrap_text_by_width (measAt size) headline maxw →
      (lcf_loop measAt headline maxw min_size size lines).2 =
        wrap_text_by_width
          (measAt (lcf_loop measAt headline maxw min_size size lines).1) headline maxw ∧
      ((lcf_loop measAt headline maxw min_size size lines).2.length ≤ 5 ∨
        (lcf_loop measAt headline maxw min_size size lines).1 ≤ min_size) ∧
      (lcf_loop measAt headline maxw min_size size lines).1 ≤ size ∧
      ((lcf_loop measAt headline maxw min_size size lines).1 = size ∨
        min_size - 8 < (lcf_loop measAt headline maxw min_size size lines).1) ∧
      lcf_iters measAt headline maxw min_size size lines ≤
        ((size - min_size).toNat + 7) / 8 := by
  intro n
  induction n with
  | zero =>
    intro size lines hs hl
    have hc : ¬(5 < lines.length ∧ min_size < size) := by
      rintro ⟨-, h2⟩
      omega
    rw [lcf_loop_of_exit hc, lcf_iters_of_exit hc]
    rcases not_and_or.mp hc with h1 | h2
    · exact ⟨hl, Or.inl (by show lines.length ≤ 5; omega), le_refl _, Or.inl rfl, by omega⟩
    · exact ⟨hl, Or.inr (by show size ≤ min_size; omega), le_refl _, Or.inl rfl, by omega⟩
  | succ n ih =>
    intro size lines hs hl
    by_cases hc : 5 < lines.length ∧ min_size < size
    · rw [lcf_loop_of_cond hc, lcf_iters_of_cond hc]
      have IH := ih (size - 8) (wrap_text_by_width (measAt (size - 8)) headline maxw)
        (by omega) rfl
      refine ⟨IH.1, IH.2.1, by omega, ?_, ?_⟩
      · rcases IH.2.2.2.1 with h1 | h2
        · right; omega
        · right; exact h2
      · have hb := IH.2.2.2.2
        omega
    · rw [lcf_loop_of_exit hc, lcf_iters_of_exit hc]
      rcases not_and_or.mp hc with h1 | h2
      · exact ⟨hl, Or.inl (by show lines.length ≤ 5; omega), le_refl _, Or.inl rfl, by omega⟩
      · exact ⟨hl, Or.inr (by show size ≤ min_size; omega), le_refl _, Or.inl rfl, by omega⟩

/-- C4 counterexample: with `cexMeas` and `cexHead`, `maxw = 1`,
`min_size = 90` and a width-fitted start size of `94`, the phase runs one
iteration (the claimed bound `(94 - 90) / 8` is `0`), ends at size `86`,
which is below `min_size = 90`, with 7 lines — even though wrapping at
`min_size = 90` itself would produce a single line. -/
theorem line_count_fit_cex :
    (line_count_fit cexMeas cexHead 1 90 94).1 = 86 ∧
    5 < (line_count_fit cexMeas cexHead 1 90 94).2.length ∧
    (wrap_text_by_width (cexMeas 90) cexHead 1).length ≤ 5 ∧
    line_count_fit_iters cexMeas cexHead 1 90 94 = 1 ∧
    ((86 : Int) < 90 ∧ ((94 - 90 : Int)).toNat / 8 = 0) := by
  have h94 : wrap_text_by_width (cexMeas 94) cexHead 1 =
      [['a'], ['b'], ['c'], ['d'], ['e'], ['f'], ['g']] := by decide
  have h86 : wrap_text_by_width (cexMeas ((94 : Int) - 8)) cexHead 1 =
      [['a'], ['b'], ['c'], ['d'], ['e'], ['f'], ['g']] := by decide
  have hcond : 5 < (wrap_text_by_width (cexMeas 94) cexHead 1).length ∧
      (90 : Int) < 94 := by
    rw [h94]
    exact ⟨by decide, by decide⟩
  have hexit : ¬(5 < (wrap_text_by_width (cexMeas ((94 : Int) - 8)) cexHead 1).length ∧
      (90 : Int) < (94 : Int) - 8) := by
    rintro ⟨-, h⟩
    omega
  have hloop : lcf_loop cexMeas cexHead 1 90 94 (wrap_text_by_width (cexMeas 94) cexHead 1) =
      ((94 : Int) - 8, wrap_text_by_width (cexMeas ((94 : Int) - 8)) cexHead 1) := by
    rw [lcf_loop_of_cond hcond, lcf_loop_of_exit hexit]
  have hiter : lcf_iters cexMeas cexHead 1 90 94 (wrap_text_by_width (cexMeas 94) cexHead 1) = 1 := by
    rw [lcf_iters_of_cond hcond, lcf_iters_of_exit hexit]
  refine ⟨?_, ?_, ?_, ?_, by decide, by decide⟩
  · rw [line_count_fit, if_pos hcond.1, hloop]
    norm_num
  · rw [line_count_fit, if_pos hcond.1, hloop]
    rw [show ((94 : Int) - 8, wrap_text_by_width (cexMeas ((94 : Int) - 8)) cexHead 1).2 =
      wrap_text_by_width (cexMeas ((94 : Int) - 8)) cexHead 1 from rfl, h86]
    decide
  · decide
  · rw [line_count_fit_iters, if_pos hcond.1, hiter]

/-- C4 (corrected): the line-count-fit phase returns a pair `(size, lines)`
with `lines` equal to the wrap of the headline at `size`; it stops with at
most 5 lines or with `size ≤ min_size`; the returned size never exceeds the
starting size `s0`; when the loop ran at all the returned size still exceeds
`min_size - 8` (it may undershoot `min_size` by up to 7, and the sizes tried
may skip `min_size` itself); and the phase terminates within
`⌈(s0 - min_size) / 8⌉` iterations. -/
theorem line_count_fit_props (measAt : Int → List Char → Int) (headline : List Char)
    (maxw min_size s0 : Int) :
    (line_count_fit measAt headline maxw min_size s0).2 =
      wrap_text_by_width
        (measAt (line_count_fit measAt headline maxw min_size s0).1) headline maxw ∧
    ((line_count_fit measAt headline maxw min_size s0).2.length ≤ 5 ∨
      (line_count_fit measAt headline maxw min_size s0).1 ≤ min_size) ∧
    (line_count_fit measAt headline maxw min_size s0).1 ≤ s0 ∧
    ((line_count_fit measAt headline maxw min_size s0).1 = s0 ∨
      min_size - 8 < (line_count_fit measAt headline maxw min_size s0).1) ∧
    line_count_fit_iters measAt headline maxw min_size s0 ≤
      ((s0 - min_size).toNat + 7) / 8 := by
  by_cases h0 : 5 < (wrap_text_by_width (measAt s0) headline maxw).length
  · rw [line_count_fit, line_count_fit_iters, if_pos h0, if_pos h0]
    exact lcf_facts measAt headline maxw min_size (s0 - min_size).toNat s0
      (wrap_text_by_width (measAt s0) headline maxw) (le_refl _) rfl
  · rw [line_count_fit, line_count_fit_iters, if_neg h0, if_neg h0]
    exact ⟨rfl, Or.inl (by show (wrap_text_by_width (measAt s0) headline maxw).length ≤ 5; omega),
      le_refl _, Or.inl rfl, by omega⟩

/-- C7 (confirmed): with `available = canvas.height - 2·margin`, the content
top Y is `margin + 0.15·available` when `total_content_height <
0.6·available`, and `margin + 40` otherwise.  (For the program's canvas the
float arithmetic is exact; see `top_y`.) -/
theorem top_y_heuristic :
    ∀ (title_h summary_h : Int),
      (((total_content_h title_h summary_h : Int) : ℚ) < (0.6 : ℚ) * (available : ℚ) →
        ((top_y (total_content_h title_h summary_h) : Int) : ℚ) =
          (MARGIN : ℚ) + (0.15 : ℚ) * (available : ℚ)) ∧
      ((0.6 : ℚ) * (available : ℚ) ≤ ((total_content_h title_h summary_h : Int) : ℚ) →
        top_y (total_content_h title_h summary_h) = MARGIN + 40) := by
  intro th sh
  have hav : (available : ℚ) = 2260 := by norm_num [available, IMG_H, MARGIN]
  constructor
  · intro h
    rw [hav] at h
    have h6 : ((total_content_h th sh : Int) : ℚ) < 1356 := by
      calc ((total_content_h th sh : Int) : ℚ) < (0.6 : ℚ) * 2260 := h
        _ = 1356 := by norm_num
    have h' : total_content_h th sh < 1356 := by exact_mod_cast h6
    rw [top_y, if_pos h', hav]
    push_cast
    norm_num [MARGIN]
  · intro h
    rw [hav] at h
    have h6 : (1356 : ℚ) ≤ ((total_content_h th sh : Int) : ℚ) := by
      calc (1356 : ℚ) = (0.6 : ℚ) * 2260 := by norm_num
        _ ≤ _ := h
    have h' : ¬ (total_content_h th sh < 1356) := by
      have : (1356 : Int) ≤ total_content_h th sh := by exact_mod_cast h6
      omega
    rw [top_y, if_neg h']

/-- C7 witness: a short content block (total height 60) is placed at
`margin + 0.15·available`. -/
theorem top_y_heuristic_witness :
    ((total_content_h 0 0 : Int) : ℚ) < (0.6 : ℚ) * (available : ℚ) ∧
      ((top_y (total_content_h 0 0) : Int) : ℚ) =
        (MARGIN : ℚ) + (0.15 : ℚ) * (available : ℚ) :=
  ⟨by norm_num [total_content_h, gap, available, IMG_H, MARGIN],
    (top_y_heuristic 0 0).1
      (by norm_num [total_content_h, gap, available, IMG_H, MARGIN])⟩

theorem listStartsWith_nil_pat (s : List Char) : listStartsWith s [] = true := by
  cases s <;> rfl

theorem listStartsWith_cons (c : Char) (cs : List Char) (p : Char) (ps : List Char) :
    listStartsWith (c :: cs) (p :: ps) = ((c == p) && listStartsWith cs ps) := rfl

/-- `listStartsWith s pat` holds exactly when `pat` is a prefix of `s`. -/
theorem listStartsWith_iff (pat : List Char) :
    ∀ (s : List Char), listStartsWith s pat = true ↔ ∃ r, s = pat ++ r := by
  induction pat with
  | nil =>
    intro s
    rw [listStartsWith_nil_pat]
    simp
  | cons p ps ih =>
    intro s
    cases s with
    | nil =>
      simp only [listStartsWith]
      constructor
      · intro h; exact absurd h (by simp)
      · rintro ⟨r, hr⟩; simp at hr
    | cons c cs =>
      rw [listStartsWith_cons, Bool.and_eq_true, beq_iff_eq, ih cs]
      constructor
      · rintro ⟨rfl, r, rfl⟩
        exact ⟨r, rfl⟩
      · rintro ⟨r, hr⟩
        simp only [List.cons_append, List.cons.injEq] at hr
        exact ⟨hr.1, r, hr.2⟩

/-- The substring test underlying the partition: `pyPartitionBefore` finds
something exactly when the pattern occurs as a contiguous substring. -/
theorem pyPartitionBefore_isSome_iff (pat : List Char) :
    ∀ (s : List Char), (pyPartitionBefore pat s).isSome = true ↔ ∃ a b, s = a ++ pat ++ b := by
  intro s
  induction s with
  | nil =>
    simp only [pyPartitionBefore]
    by_cases h : listStartsWith [] pat = true
    · rw [if_pos h]
      obtain ⟨r, hr⟩ := (listStartsWith_iff pat []).mp h
      simp only [Option.isSome_some, true_iff]
      exact ⟨[], r, by simpa using hr⟩
    · rw [if_neg h]
      simp only [Option.isSome_none]
      constructor
      · intro hF; exact absurd hF (by simp)
      · rintro ⟨a, b, hab⟩
        exact absurd ((listStartsWith_iff pat []).mpr
          ⟨b, by cases a with
                 | nil => simpa using hab
                 | cons a0 a' => simp at hab⟩) h
  | cons c t ih =>
    simp only [pyPartitionBefore]
    by_cases h : listStartsWith (c :: t) pat = true
    · rw [if_pos h]
      obtain ⟨r, hr⟩ := (listStartsWith_iff pat (c :: t)).mp h
      simp only [Option.isSome_some, true_iff]
      exact ⟨[], r, by simpa using hr⟩
    · rw [if_neg h]
      cases hpp : pyPartitionBefore pat t with
      | none =>
        simp only [Option.map_none', Option.isSome_none]
        constructor
        · intro hF; exact absurd hF (by simp)
        · rintro ⟨a, b, hab⟩
          cases a with
          | nil =>
            exact absurd ((listStartsWith_iff pat (c :: t)).mpr ⟨b, by simpa using hab⟩) h
          | cons a0 a' =>
            simp only [List.cons_append, List.cons.injEq] at hab
            have : (pyPartitionBefore pat t).isSome = true :=
              (ih).mpr ⟨a', b, hab.2⟩
            rw [hpp] at this
            exact absurd this (by simp)
      | some b0 =>
        simp only [Option.map_some', Option.isSome_some, true_iff]
        have : (pyPartitionBefore pat t).isSome = true := by rw [hpp]; rfl
        obtain ⟨a, b, hab⟩ := ih.mp this
        exact ⟨c :: a, b, by rw [hab]; rfl⟩

/-- Partition correctness: the returned `before` is the text before the
first (leftmost) occurrence of the pattern. -/
theorem pyPartitionBefore_spec (pat : List Char) :
    ∀ (s before : List Char), pyPartitionBefore pat s = some before →
      (∃ rest, s = before ++ pat ++ rest) ∧
      (∀ pre suf, s = pre ++ pat ++ suf → before.length ≤ pre.length) := by
  intro s
  induction s with
  | nil =>
    intro before h
    simp only [pyPartitionBefore] at h
    by_cases hs : listStartsWith [] pat = true
    · rw [if_pos hs] at h
      have hb : before = [] := by
        injection h with h'
        exact h'.symm
      subst hb
      obtain ⟨r, hr⟩ := (listStartsWith_iff pat []).mp hs
      exact ⟨⟨r, by simpa using hr⟩, fun pre suf _ => by simp⟩
    · rw [if_neg hs] at h
      exact absurd h (by simp)
  | cons c t ih =>
    intro before h
    simp only [pyPartitionBefore] at h
    by_cases hs : listStartsWith (c :: t) pat = true
    · rw [if_pos hs] at h
      have hb : before = [] := by
        injection h with h'
        exact h'.symm
      subst hb
      obtain ⟨r, hr⟩ := (listStartsWith_iff pat (c :: t)).mp hs
      exact ⟨⟨r, by simpa using hr⟩, fun pre suf _ => by simp⟩
    · rw [if_neg hs] at h
      cases hpp : pyPartitionBefore pat t with
      | none =>
        rw [hpp] at h
        exact absurd h (by simp)
      | some b0 =>
        rw [hpp] at h
        have hb : before = c :: b0 := by
          simp only [Option.map_some', Option.some.injEq] at h
          exact h.symm
        subst hb
        obtain ⟨⟨rest, hrest⟩, hmin⟩ := ih b0 hpp
        refine ⟨⟨rest, by rw [List.cons_append, List.cons_append, ← hrest]⟩, ?_⟩
        intro pre suf hps
        cases pre with
        | nil =>
          exact absurd ((listStartsWith_iff pat (c :: t)).mpr ⟨suf, by simpa using hps⟩) hs
        | cons p0 pre' =>
          simp only [List.cons_append, List.cons.injEq] at hps
          have := hmin pre' suf hps.2
          simp only [List.length_cons]
          omega

/-- Every drawn record's box is the `lineBox` of its own line and `y`. -/
theorem drawTitleLines_mem_box (measW measH : List Char → Int) (hl : List Char) :
    ∀ (lines : List (List Char)) (y : Int) (r : TitleLineDraw),
      r ∈ drawTitleLines measW measH hl lines y →
      r.box = lineBox measW measH hl r.line r.y := by
  intro lines
  induction lines with
  | nil => intro y r hr; simp [drawTitleLines] at hr
  | cons line rest ih =>
    intro y r hr
    simp only [drawTitleLines] at hr
    rcases List.mem_cons.mp hr with h1 | h2
    · subst h1; rfl
    · exact ih _ r h2

/-- C5 counterexample: with phrase "a" occurring in both title lines "ba" and
"ca", a highlight box is drawn on BOTH lines, not only on the first matching
line as the claim states. -/
theorem highlight_every_line_cex :
    (drawTitleLines (fun l => (l.length : Int)) (fun l => (l.length : Int)) ('a' :: [])
        [('b' :: 'a' :: []), ('c' :: 'a' :: [])] 0).map (fun r => r.box.isSome) =
      [true, true] := by decide

/-- C5 (corrected): a highlight box is drawn for EVERY line that contains the
(nonempty) phrase as a case-sensitive contiguous substring — not only the
first such line; lines not containing the phrase are drawn as plain text. -/
theorem highlight_box_iff_contains :
    ∀ (measW measH : List Char → Int) (hl : List Char) (lines : List (List Char))
      (ystart : Int) (r : TitleLineDraw),
      r ∈ drawTitleLines measW measH hl lines ystart →
      (r.box.isSome = true ↔ (hl ≠ [] ∧ ∃ a b, r.line = a ++ hl ++ b)) := by
  intro measW measH hl lines ystart r hr
  rw [drawTitleLines_mem_box measW measH hl lines ystart r hr]
  unfold lineBox
  by_cases h0 : hl = []
  · rw [if_pos h0]
    simp [h0]
  · rw [if_neg h0]
    cases hpp : pyPartitionBefore hl r.line with
    | none =>
      simp only [Option.isSome_none]
      constructor
      · intro hF; exact absurd hF (by simp)
      · rintro ⟨-, a, b, hab⟩
        have : (pyPartitionBefore hl r.line).isSome = true :=
          (pyPartitionBefore_isSome_iff hl r.line).mpr ⟨a, b, hab⟩
        rw [hpp] at this
        exact absurd this (by simp)
    | some before =>
      simp only [Option.isSome_some, true_iff]
      refine ⟨h0, ?_⟩
      obtain ⟨⟨rest, hrest⟩, -⟩ := pyPartitionBefore_spec hl r.line before hpp
      exact ⟨before, rest, hrest⟩

/-- C5 witness: a record of the drawing pass whose line contains the phrase,
with the equivalence instantiated. -/
theorem highlight_box_iff_witness :
    (({ line := ('b' :: 'a' :: []), y := 0, box := some (113, -6, 130, 7) } :
        TitleLineDraw).box.isSome = true ↔
      (('a' :: []) ≠ [] ∧ ∃ a b,
        ({ line := ('b' :: 'a' :: []), y := 0, box := some (113, -6, 130, 7) } :
          TitleLineDraw).line = a ++ ('a' :: []) ++ b)) :=
  highlight_box_iff_contains (fun l => (l.length : Int)) (fun l => (l.length : Int))
    ('a' :: []) [('b' :: 'a' :: [])] 0
    { line := ('b' :: 'a' :: []), y := 0, box := some (113, -6, 130, 7) } (by decide)

/-- C6 counterexample: phrase "ab" at the very start of line "ab" gives
`before = ""`, so the box's left edge is `MARGIN + 0 - 8 = 112 < MARGIN`,
refuting the claimed invariant `margin ≤ x0`. -/
theorem highlight_box_margin_cex :
    drawTitleLines (fun l => (l.length : Int)) (fun l => (l.length : Int))
        ('a' :: 'b' :: []) [('a' :: 'b' :: [])] 300 =
      [{ line := ('a' :: 'b' :: []), y := 300, box := some (112, 294, 130, 308) }] ∧
    (112 : Int) < MARGIN := by decide

/-- C6 (corrected): every produced highlight box encloses the matched
substring's measured bounds expanded by exactly 8 px horizontally and 6 px
vertically (using the first occurrence in the line).  Its horizontal extent
satisfies only the relaxed bounds `margin - 8 ≤ x0` (when widths are
non-negative) and `x1 ≤ canvas_width - margin + 8` (when the piece widths
fit the content width): the padding may push the box up to 8 px outside
`[margin, canvas_width - margin]`. -/
theorem highlight_box_geometry :
    ∀ (measW measH : List Char → Int) (hl : List Char) (lines : List (List Char))
      (ystart : Int) (r : TitleLineDraw) (x0 y0 x1 y1 : Int),
      r ∈ drawTitleLines measW measH hl lines ystart →
      r.box = some (x0, y0, x1, y1) →
      ∃ before after, r.line = before ++ hl ++ after ∧
        (∀ pre suf, r.line = pre ++ hl ++ suf → before.length ≤ pre.length) ∧
        x0 = MARGIN + measW before - 8 ∧
        x1 = MARGIN + measW before + measW hl + 8 ∧
        y0 = r.y - 6 ∧
        y1 = r.y + measH hl + 6 ∧
        x0 ≤ MARGIN + measW before ∧
        MARGIN + measW before + measW hl ≤ x1 ∧
        y0 ≤ r.y ∧
        r.y + measH hl ≤ y1 ∧
        (0 ≤ measW before → MARGIN - 8 ≤ x0) ∧
        (measW before + measW hl ≤ IMG_W - 2 * MARGIN → x1 ≤ IMG_W - MARGIN + 8) := by
  intro measW measH hl lines ystart r x0 y0 x1 y1 hr hbox
  rw [drawTitleLines_mem_box measW measH hl lines ystart r hr] at hbox
  unfold lineBox at hbox
  by_cases h0 : hl = []
  · rw [if_pos h0] at hbox
    exact absurd hbox (by simp)
  · rw [if_neg h0] at hbox
    cases hpp : pyPartitionBefore hl r.line with
    | none =>
      rw [hpp] at hbox
      exact absurd hbox (by simp)
    | some before =>
      rw [hpp] at hbox
      have h' := Option.some.inj hbox
      simp only [Prod.mk.injEq] at h'
      obtain ⟨h1, h2, h3, h4⟩ := h'
      obtain ⟨⟨rest, hrest⟩, hmin⟩ := pyPartitionBefore_spec hl r.line before hpp
      refine ⟨before, rest, hrest, hmin, h1.symm, h3.symm, h2.symm, h4.symm,
        ?_, ?_, ?_, ?_, ?_, ?_⟩
      · omega
      · omega
      · omega
      · omega
      · intro hw; omega
      · intro hw; omega

/-- C6 witness: a concrete box with all geometric conclusions instantiated. -/
theorem highlight_box_geometry_witness :
    ∃ before after,
      ({ line := ('b' :: 'a' :: []), y := 10, box := some (113, 4, 130, 17) } :
          TitleLineDraw).line = before ++ ('a' :: []) ++ after ∧
      (∀ pre suf,
        ({ line := ('b' :: 'a' :: []), y := 10, box := some (113, 4, 130, 17) } :
            TitleLineDraw).line = pre ++ ('a' :: []) ++ suf →
        before.length ≤ pre.length) ∧
      (113 : Int) = MARGIN + (fun l => (l.length : Int)) before - 8 ∧
      (130 : Int) = MARGIN + (fun l => (l.length : Int)) before +
        (fun l => (l.length : Int)) ('a' :: []) + 8 ∧
      (4 : Int) = ({ line := ('b' :: 'a' :: []), y := 10, box := some (113, 4, 130, 17) } :
          TitleLineDraw).y - 6 ∧
      (17 : Int) = ({ line := ('b' :: 'a' :: []), y := 10, box := some (113, 4, 130, 17) } :
          TitleLineDraw).y + (fun l => (l.length : Int)) ('a' :: []) + 6 ∧
      (113 : Int) ≤ MARGIN + (fun l => (l.length : Int)) before ∧
      MARGIN + (fun l => (l.length : Int)) before + (fun l => (l.length : Int)) ('a' :: []) ≤ 130 ∧
      (4 : Int) ≤ ({ line := ('b' :: 'a' :: []), y := 10, box := some (113, 4, 130, 17) } :
          TitleLineDraw).y ∧
      ({ line := ('b' :: 'a' :: []), y := 10, box := some (113, 4, 130, 17) } :
          TitleLineDraw).y + (fun l => (l.length : Int)) ('a' :: []) ≤ 17 ∧
      (0 ≤ (fun l => (l.length : Int)) before → MARGIN - 8 ≤ 113) ∧
      ((fun l => (l.length : Int)) before + (fun l => (l.length : Int)) ('a' :: []) ≤
          IMG_W - 2 * MARGIN →
        (130 : Int) ≤ IMG_W - MARGIN + 8) :=
  highlight_box_geometry (fun l => (l.length : Int)) (fun l => (l.length : Int))
    ('a' :: []) [('b' :: 'a' :: [])] 10
    { line := ('b' :: 'a' :: []), y := 10, box := some (113, 4, 130, 17) }
    113 4 130 17 (by decide) (by decide)

/-- Characters produced by the run-collapsing substitution are alphanumeric
or underscores. -/
theorem collapseAux_chars :
    ∀ (t : List Char) (b : Bool), ∀ c ∈ collapseAux b t, c.isAlphanum = true ∨ c = '_' := by
  intro t
  induction t with
  | nil => intro b c hc; simp [collapseAux] at hc
  | cons x xs ih =>
    intro b c hc
    simp only [collapseAux] at hc
    by_cases hx : x.isAlphanum
    · rw [if_pos hx] at hc
      rcases List.mem_cons.mp hc with h1 | h2
      · subst h1; exact Or.inl hx
      · exact ih false c h2
    · rw [if_neg hx] at hc
      by_cases hb : b = true
      · rw [if_pos hb] at hc
        exact ih true c hc
      · rw [if_neg hb] at hc
        rcases List.mem_cons.mp hc with h1 | h2
        · subst h1; exact Or.inr rfl
        · exact ih true c h2

/-- C8 counterexample: for title "a b" the code replaces the space with an
underscore (`post_1_a_b.png`), it does not strip it as the claim states
(`post_1_ab.png`). -/
theorem out_path_title_cex :
    out_path (("Tech").data) (("a b").data) 1 =
      (("generated_posts/Tech/post_1_a_b.png")).data ∧
    out_path (("Tech").data) (("a b").data) 1 ≠
      (("generated_posts/Tech/post_1_ab.png")).data := by decide

/-- C8 (corrected): the saved path is
`generated_posts/<sanitized-category>/post_<index>_<sanitized-title>.png`
where (for a nonempty category) category sanitization replaces every
character outside `[A-Za-z0-9_-]` with an underscore, and title sanitization
replaces each maximal run of non-alphanumeric characters with a single
underscore (it does not strip them) and caps the result at 40 characters;
an empty category is replaced by "uncategorized". -/
theorem out_path_format :
    ∀ (category t : List Char) (index : Nat), category ≠ [] →
      out_path category t index =
        ("generated_posts/").data ++
          category.map (fun c => if c.isAlphanum || c == '_' || c == '-' then c else '_') ++
          ("/post_").data ++ (Nat.repr index).data ++ ("_").data ++
          safe_title t ++ (".png").data ∧
      (safe_title t).length ≤ 40 ∧
      (∀ c ∈ safe_title t, c.isAlphanum = true ∨ c = '_') := by
  intro category t index hcat
  refine ⟨?_, ?_, ?_⟩
  · unfold out_path safe_cat
    rw [if_neg hcat]
  · unfold safe_title
    exact List.length_take_le 40 (collapseAux false t)
  · intro c hc
    exact collapseAux_chars t false c (List.mem_of_mem_take hc)

/-- C8 witness: the sanitized title of "a b" is at most 40 characters. -/
theorem out_path_format_witness :
    (safe_title (("a b").data)).length ≤ 40 :=
  (out_path_format (("Tech").data) (("a b").data) 2 (by decide)).2.1

/-- C9 counterexample: with two sibling items where only the first item's
save fails, the batch raises (`Except.error`), writes nothing, and never
processes the second item — even though the second item's own save would
succeed. -/
theorem generate_all_abort_cex :
    generate_all cexSaveOk ('c' :: []) [cexItem1, cexItem2] = Except.error () ∧
    generate_all_saved cexSaveOk ('c' :: []) [cexItem1, cexItem2] = [] ∧
    cexSaveOk (out_path ('c' :: []) (title_original cexItem2) 2) = true :=
  ⟨rfl, rfl, rfl⟩

/-- C9 (corrected): a save failure is raised as an exception that propagates
out of `create_post_image`; `generate_all` has no handler, so the batch
aborts at the first failing item: the overall result is an error (no
per-item failure value), exactly the successfully saved predecessors are on
disk, and the remaining sibling items are never processed. -/
theorem generate_all_abort (saveOk : List Char → Bool) (category : List Char) :
    ∀ (pre : List Item) (it : Item) (rest : List Item) (i : Nat),
      (∀ p ∈ List.enumFrom i pre,
        saveOk (out_path category (title_original p.2) p.1) = true) →
      saveOk (out_path category (title_original it) (i + pre.length)) = false →
      generate_all_go saveOk category i (pre ++ it :: rest) = Except.error () ∧
      generate_all_saved_go saveOk category i (pre ++ it :: rest) =
        (List.enumFrom i pre).map (fun p => out_path category (title_original p.2) p.1) := by
  intro pre
  induction pre with
  | nil =>
    intro it rest i hpre hfail
    have hfail' : saveOk (out_path category (title_original it) i) = false := by
      simp at hfail
      exact hfail
    have hsave : save_image saveOk category it i = Except.error () := by
      unfold save_image
      rw [if_neg (by rw [hfail']; simp)]
    constructor
    · show generate_all_go saveOk category i (it :: rest) = Except.error ()
      unfold generate_all_go
      rw [hsave]
    · show generate_all_saved_go saveOk category i (it :: rest) = _
      unfold generate_all_saved_go
      rw [hsave]
      rfl
  | cons q pre' ih =>
    intro it rest i hpre hfail
    have hq : saveOk (out_path category (title_original q) i) = true :=
      hpre (i, q) (by rw [show List.enumFrom i (q :: pre') = (i, q) :: List.enumFrom (i + 1) pre' from rfl]; exact List.mem_cons_self _ _)
    have hsave : save_image saveOk category q i =
        Except.ok (out_path category (title_original q) i) := by
      unfold save_image
      rw [if_pos hq]
    have hfail' : saveOk (out_path category (title_original it) ((i + 1) + pre'.length)) = false := by
      have harith : (i + 1) + pre'.length = i + (q :: pre').length := by
        simp [List.length_cons]
        omega
      rw [harith]
      exact hfail
    have hpre' : ∀ p ∈ List.enumFrom (i + 1) pre',
        saveOk (out_path category (title_original p.2) p.1) = true := by
      intro p hp
      exact hpre p (by
        rw [show List.enumFrom i (q :: pre') = (i, q) :: List.enumFrom (i + 1) pre' from rfl]
        exact List.mem_cons_of_mem _ hp)
    have IH := ih it rest (i + 1) hpre' hfail'
    constructor
    · show generate_all_go saveOk category i (q :: (pre' ++ it :: rest)) = Except.error ()
      unfold generate_all_go
      rw [hsave, IH.1]
      rfl
    · show generate_all_saved_go saveOk category i (q :: (pre' ++ it :: rest)) = _
      unfold generate_all_saved_go
      rw [hsave, IH.2]
      rfl

/-- C9 witness: the first item saves fine, the second item's save fails, and
the batch ends in an error with only the first item's file written. -/
theorem generate_all_abort_witness :
    generate_all_go (fun p => !(p == out_path ('c' :: []) (title_original cexItem2) 2))
        ('c' :: []) 1 ([cexItem1] ++ cexItem2 :: []) = Except.error () ∧
    generate_all_saved_go (fun p => !(p == out_path ('c' :: []) (title_original cexItem2) 2))
        ('c' :: []) 1 ([cexItem1] ++ cexItem2 :: []) =
      (List.enumFrom 1 [cexItem1]).map
        (fun p => out_path ('c' :: []) (title_original p.2) p.1) :=
  generate_all_abort (fun p => !(p == out_path ('c' :: []) (title_original cexItem2) 2))
    ('c' :: []) [cexItem1] cexItem2 [] 1 (by decide) (by decide)

/-- C10 (confirmed): a missing, empty or whitespace-only `title` field is
replaced by the headline "No Title" (so the headline is never empty and an
image is still produced), and a missing `summary` field is treated as the
empty string. -/
theorem title_fallbacks :
    ∀ (it : Item),
      (pyStrip ((it.titleField).getD []) = [] → title_original it = ("No Title").data) ∧
      title_original it ≠ [] ∧
      (it.summaryField = none → summary_raw it = []) := by
  intro it
  refine ⟨?_, ?_, ?_⟩
  · intro h
    unfold title_original
    rw [h]
    rfl
  · unfold title_original
    by_cases h : pyStrip ((it.titleField).getD []) = []
    · rw [h]
      simp
    · simp only []
      rw [if_neg h]
      exact h
  · intro h
    unfold summary_raw
    rw [h]
    rfl

/-- C10 witness: an item with a whitespace-only title gets the headline
"No Title". -/
theorem title_fallbacks_witness :
    title_original { titleField := some (' ' :: []), summaryField := none } =
      ("No Title").data :=
  (title_fallbacks { titleField := some (' ' :: []), summaryField := none }).1 (by decide)
